import Mathlib

/-!
Verification of the followthecode repository metrics tool (src/followthecode.py)
against its natural-language specification.

The Python source is shallowly embedded: Python dicts (which preserve insertion
order) become association lists with in-place update of the first matching key
and append-at-end for new keys; Python sets of authors become duplicate-free
lists; Unix commit timestamps become integers (seconds); floating-point hours
become rational numbers; Python stable sorting (`sorted` / `list.sort`) becomes
a stable insertion sort, which agrees with any stable sort for the total
preorders used by the program.
-/

namespace FollowTheCode

/-! ## Python dict and set model -/

/-- Association-list lookup, modelling Python dict indexing `d[k]` / `k in d`. -/
def dictGet? (d : List (String × β)) (k : String) : Option β :=
  match d with
  | [] => none
  | (k1, v) :: rest => if k1 = k then some v else dictGet? rest k

/-- Python dict read-modify-write `d[k] = f(d.get(k, d0))`: the first binding of
the key is updated in place when present, else a new binding is appended at the
end, matching the insertion-order semantics of Python dicts. -/
def dictUpdate (d : List (String × β)) (k : String) (d0 : β) (f : β → β) :
    List (String × β) :=
  match d with
  | [] => [(k, f d0)]
  | (k1, v) :: rest =>
    if k1 = k then (k1, f v) :: rest else (k1, v) :: dictUpdate rest k d0 f

/-- Python dict assignment `d[k] = v`. -/
def dictSet (d : List (String × β)) (k : String) (v : β) : List (String × β) :=
  dictUpdate d k v (fun _ => v)

/-- The keys of an association list, in insertion order. -/
def keys (d : List (String × β)) : List String :=
  d.map Prod.fst

/-- Sum of the values of a counter dict. -/
def sumVals (d : List (String × Nat)) : Nat :=
  (d.map Prod.snd).sum

/-- Python set insertion `s.add(a)` for a set modelled as a duplicate-free list. -/
def setAdd (s : List String) (a : String) : List String :=
  if a ∈ s then s else s ++ [a]

/-! ## Stable sort model

Python `sorted` and `list.sort` are stable sorts; for the total preorders used
by this program the output of any stable sort is uniquely determined, so we
model them with a stable insertion sort. -/

/-- Insert `x` after every element `y` of `l` with `le y x`; this keeps earlier
tied elements before `x`, which is exactly the stability guarantee of Python
sorting. -/
def insertStable (le : α → α → Bool) (x : α) : List α → List α
  | [] => [x]
  | y :: ys => if le y x then y :: insertStable le x ys else x :: y :: ys

/-- Model of Python `sorted(l, ...)` / `l.sort(...)` with boolean comparison
`le`: stable insertion sort. -/
def pySort (le : α → α → Bool) (l : List α) : List α :=
  l.foldl (fun acc x => insertStable le x acc) []

/-! ## Python string order

Python compares strings lexicographically by code points; `String.lt` in Lean
is the same order but is not kernel-reducible, so we embed the comparison
directly on the character lists. -/

/-- Lexicographic less-or-equal on character lists, by code point. -/
def charListLe : List Char → List Char → Bool
  | [], _ => true
  | _ :: _, [] => false
  | a :: as, b :: bs =>
    if a.toNat < b.toNat then true
    else if b.toNat < a.toNat then false
    else charListLe as bs

/-- Python string less-or-equal (lexicographic by code point). -/
def pyStrLe (a b : String) : Bool :=
  charListLe a.data b.data

/-! ## Data model

A commit carries its author identity (Python `str(commit.author)`), its
committed timestamp (Unix seconds, `commit.committed_date`), and the per-file
statistics of `commit.stats.files`: for each touched file path, the numbers of
inserted and deleted lines. -/

/-- Per-file statistics of one commit, an entry of `commit.stats.files`. -/
structure FileStat where
  insertions : Nat
  deletions : Nat
  deriving DecidableEq

/-- A commit as consumed by the tool. -/
structure Commit where
  author : String
  committedDate : Int
  files : List (String × FileStat)
  deriving DecidableEq

/-- The repository handle as consumed by the tool: its branch names, the
currently checked-out branch, and the backend commit iteration
`repo.iter_commits(branch)`, which yields commits newest first. -/
structure Repo where
  branches : List String
  activeBranch : String
  commitsOf : String → List Commit

/-- Weekday names as produced by `strftime` with the `%A` format. -/
def dayNames : List String :=
  ["Monday", "Tuesday", "Wednesday", "Thursday", "Friday", "Saturday", "Sunday"]

/-- Weekday name of a Unix timestamp (`datetime.fromtimestamp(t).strftime`
with `%A`); day 0 of the epoch is a Thursday, hence the offset 3 in the
Monday-based index. The timezone is abstracted as UTC. -/
def dayOfWeekName (t : Int) : String :=
  dayNames.getD ((t.fdiv 86400 + 3).emod 7).toNat ""

/-- Accumulated totals for one file, the value type of `file_stats`:
insertions, deletions, and the set of authors that touched the file. -/
structure FileAgg where
  insertions : Nat
  deletions : Nat
  authors : List String
  deriving DecidableEq

/-- The mutable dictionaries of `generate_metrics`, built in one forward pass
over the sorted commits. Field names follow the Python locals. -/
structure AggState where
  commits_by_author : List (String × Nat)
  file_stats : List (String × FileAgg)
  lines_by_author : List (String × (Nat × Nat))
  commits_by_day : List (String × Nat)
  last_commit_time_by_author : List (String × Int)
  time_diffs_by_author : List (String × List ℚ)
  file_changes_by_author : List (String × List (String × Nat))
  deriving DecidableEq

/-- The empty aggregation state at the start of `generate_metrics`. -/
def initAggState : AggState :=
  ⟨[], [], [], [], [], [], []⟩

/-- Body of the inner loop of `generate_metrics` over
`commit.stats.files.items()`: updates `file_stats`, `lines_by_author` and
`file_changes_by_author` for one `(file_name, file_stat)` entry. -/
def processFile (author : String) (s : AggState) (entry : String × FileStat) :
    AggState :=
  let file_name := entry.1
  let insertions := entry.2.insertions
  let deletions := entry.2.deletions
  let total_changes := insertions + deletions
  { s with
    file_stats := dictUpdate s.file_stats file_name ⟨0, 0, []⟩
      (fun fs => ⟨fs.insertions + insertions, fs.deletions + deletions,
        setAdd fs.authors author⟩),
    lines_by_author := dictUpdate s.lines_by_author author (0, 0)
      (fun p => (p.1 + insertions, p.2 + deletions)),
    file_changes_by_author := dictUpdate s.file_changes_by_author file_name []
      (fun inner => dictUpdate inner author 0 (fun n => n + total_changes)) }

/-- Hours between two timestamps:
`(commit_date - last_time).total_seconds() / 3600.0`, with float arithmetic
abstracted to exact rationals. -/
def hoursDiff (prev t : Int) : ℚ :=
  ((t - prev : Int) : ℚ) / 3600

/-- Body of the outer loop of `generate_metrics` over `commits_sorted`:
counts the commit for its author and weekday, records the inter-commit
interval for the author when a previous commit exists, stores the commit time
as the author's last, and folds the per-file updates over the commit stats. -/
def processCommit (s : AggState) (commit : Commit) : AggState :=
  let commit_date := commit.committedDate
  let day_of_week := dayOfWeekName commit_date
  let author := commit.author
  let s1 := { s with
    commits_by_author := dictUpdate s.commits_by_author author 0 (fun n => n + 1),
    commits_by_day := dictUpdate s.commits_by_day day_of_week 0 (fun n => n + 1) }
  let s2 := { s1 with
    time_diffs_by_author :=
      match dictGet? s1.last_commit_time_by_author author with
      | some prev =>
        dictUpdate s1.time_diffs_by_author author []
          (fun l => l ++ [hoursDiff prev commit_date])
      | none => dictUpdate s1.time_diffs_by_author author [] (fun l => l) }
  let s3 := { s2 with
    last_commit_time_by_author :=
      dictSet s2.last_commit_time_by_author author commit_date }
  commit.files.foldl (processFile author) s3

/-- The forward pass of `generate_metrics` over an already sorted commit
list. -/
def runAgg (commits : List Commit) : AggState :=
  commits.foldl processCommit initAggState

/-- Chronological (oldest first) reordering of the commit list:
`sorted(commits, key=lambda c: c.committed_date)`. -/
def commitsSorted (commits : List Commit) : List Commit :=
  pySort (fun a b => decide (a.committedDate ≤ b.committedDate)) commits

/-- The dictionary of metrics returned by `generate_metrics`; field names
follow the keys of the returned Python dict. -/
structure Metrics where
  commits_by_author : List (String × Nat)
  authors_with_most_commits : List (String × Nat)
  files_modified_list : List (String × Nat × Nat × Nat)
  files_by_authors_count : List (String × Nat)
  lines_author_list : List (String × Nat × Nat × Nat)
  commits_by_day_list : List (String × Nat)
  average_time_by_author : List (String × ℚ)
  files_most_changed_by_authors : List (String × String × Nat)
  deriving DecidableEq

/-- Embedding of `generate_metrics(repo, commits)`. The `repo` argument is
taken and ignored exactly as in the source. Aggregation runs over the
chronologically sorted commits, then the derived rankings are produced with
the stable sorts of the source. -/
def generateMetrics (repo : Repo) (commits : List Commit) : Metrics :=
  let commits_sorted := commitsSorted commits
  let st := runAgg commits_sorted
  { commits_by_author := st.commits_by_author,
    authors_with_most_commits :=
      pySort (fun a b => decide (b.2 ≤ a.2)) st.commits_by_author,
    files_modified_list :=
      pySort (fun a b => decide (b.2.2.2 ≤ a.2.2.2))
        (st.file_stats.map (fun p =>
          (p.1, p.2.insertions, p.2.deletions, p.2.insertions + p.2.deletions))),
    files_by_authors_count :=
      pySort (fun a b => decide (b.2 ≤ a.2))
        (st.file_stats.map (fun p => (p.1, p.2.authors.length))),
    lines_author_list :=
      pySort (fun a b => decide (b.2.2.2 ≤ a.2.2.2))
        (st.lines_by_author.map (fun p =>
          (p.1, p.2.1, p.2.2, p.2.1 + p.2.2))),
    commits_by_day_list :=
      pySort (fun a b => pyStrLe a.1 b.1) st.commits_by_day,
    average_time_by_author :=
      pySort (fun a b => decide (a.2 ≤ b.2))
        (st.time_diffs_by_author.map (fun p =>
          (p.1, if 0 < p.2.length then p.2.sum / (p.2.length : ℚ) else 0))),
    files_most_changed_by_authors :=
      pySort (fun a b => decide (b.2.2 ≤ a.2.2))
        (st.file_changes_by_author.flatMap (fun p =>
          p.2.map (fun q => (p.1, q.1, q.2)))) }

/-! ## Report writer

`save_metrics_to_csv` writes eight CSV files; we model the written output as a
list of (file name, rows) pairs, each row a list of cells. Numeric cells are
rendered with `toString`; the average interval is rendered with the Python
format `%.2f`, modelled by `formatTwoDecimals`. -/

/-- Model of the Python float format `%.2f` on exact rationals: round to the
nearest hundredth and print with exactly two decimal digits. Python rounds
half to even on binary floats; on the exact rational value we use `round`
(half away from zero at ties), which agrees except at exact ties of the
hundredth digit. -/
def formatTwoDecimals (q : ℚ) : String :=
  let n : Int := round (q * 100)
  let sign := if n < 0 then "-" else ""
  let m : Nat := n.natAbs
  sign ++ toString (m / 100) ++ "." ++
    (if m % 100 < 10 then "0" else "") ++ toString (m % 100)

/-- Embedding of `save_metrics_to_csv(metrics)`: the eight CSV files, each
with its header row followed by one row per entry, in the order the source
writes them. -/
def saveMetricsToCsv (metrics : Metrics) : List (String × List (List String)) :=
  [ ("commits_by_author.csv",
      ["author", "commits"] ::
        metrics.commits_by_author.map (fun p => [p.1, toString p.2])),
    ("authors_with_most_commits.csv",
      ["author", "commits"] ::
        metrics.authors_with_most_commits.map (fun p => [p.1, toString p.2])),
    ("most_modified_files.csv",
      ["file", "insertions", "deletions", "total_changes"] ::
        metrics.files_modified_list.map (fun p =>
          [p.1, toString p.2.1, toString p.2.2.1, toString p.2.2.2])),
    ("files_with_most_authors.csv",
      ["file", "num_authors"] ::
        metrics.files_by_authors_count.map (fun p => [p.1, toString p.2])),
    ("lines_by_author.csv",
      ["author", "insertions", "deletions", "code_churn"] ::
        metrics.lines_author_list.map (fun p =>
          [p.1, toString p.2.1, toString p.2.2.1, toString p.2.2.2])),
    ("commits_by_day.csv",
      ["day_of_week", "commits"] ::
        metrics.commits_by_day_list.map (fun p => [p.1, toString p.2])),
    ("average_time_between_commits.csv",
      ["author", "avg_time_between_commits_hours"] ::
        metrics.average_time_by_author.map (fun p =>
          [p.1, formatTwoDecimals p.2])),
    ("files_most_changed_by_authors.csv",
      ["file", "author", "lines_changed"] ::
        metrics.files_most_changed_by_authors.map (fun p =>
          [p.1, p.2.1, toString p.2.2])) ]

/-! ## Repository locator and main flow -/

/-- Embedding of `get_active_branch(repo)`: prefer `master`, then `main`,
else the currently active branch. -/
def getActiveBranch (repo : Repo) : String :=
  let branches := repo.branches
  if "master" ∈ branches then "master"
  else if "main" ∈ branches then "main"
  else repo.activeBranch

/-- Number of seconds in the 90-day window (`datetime.timedelta(days=90)`). -/
def ninetyDays : Int := 90 * 86400

/-- Embedding of `get_commits_in_last_3_months(repo, branch)`: the commits of
the branch whose timestamp is within the trailing 90 days from `now`. -/
def getCommitsInLast3Months (now : Int) (repo : Repo) (branch : String) :
    List Commit :=
  let three_months_ago := now - ninetyDays
  (repo.commitsOf branch).filter
    (fun c => decide (three_months_ago ≤ c.committedDate))

/-- Embedding of `get_commits_from_last_commit(repo, branch)`: empty if the
branch has no commits, else the commits within the 90-day window ending at the
most recent commit (the head of the backend iteration, which yields commits
newest first). -/
def getCommitsFromLastCommit (repo : Repo) (branch : String) : List Commit :=
  let commits := repo.commitsOf branch
  match commits.head? with
  | none => []
  | some last_commit =>
    let last := last_commit.committedDate
    let three_months_before_last := last - ninetyDays
    commits.filter (fun c =>
      decide (three_months_before_last ≤ c.committedDate) &&
        decide (c.committedDate ≤ last))

/-- The window-selection logic of `main` (lines 328 to 332 of the source):
trailing 90 days from now, else the 90-day window ending at the last commit,
else the entire branch history. -/
def selectCommitsInRange (now : Int) (repo : Repo) (branch : String) :
    List Commit :=
  let commits_in_range := getCommitsInLast3Months now repo branch
  if commits_in_range.isEmpty then
    let from_last := getCommitsFromLastCommit repo branch
    if from_last.isEmpty then repo.commitsOf branch else from_last
  else commits_in_range

/-- A modal dialog shown to the user (`messagebox.showinfo` /
`messagebox.showerror`), with its title and text. -/
inductive RunMessage where
  | info (title text : String)
  | error (title text : String)
  deriving DecidableEq

/-- The externally visible outcome of one run of `main`: the dialogs shown and
the CSV files written. -/
structure RunResult where
  messages : List RunMessage
  reportsWritten : List (String × List (List String))

/-- The environment one run of `main` observes: the directory chosen in the
file picker (`None` when the dialog is cancelled), whether that directory
contains a `.git` entry, and the result of `Repo(repo_path)`, which either
yields a repository handle or raises with a detail string. -/
structure Env where
  selectedPath : Option String
  hasGitDir : Bool
  openResult : Except String Repo

/-- Embedding of `main()`. The current time `now` (read by
`get_commits_in_last_3_months` via `datetime.datetime.now()`) is passed
explicitly. Each early return shows exactly one dialog and writes nothing. -/
def mainRun (now : Int) (env : Env) : RunResult :=
  match env.selectedPath with
  | none =>
    { messages := [.info "Cancelado" "Nenhum repositório foi selecionado. Encerrando."],
      reportsWritten := [] }
  | some _ =>
    if !env.hasGitDir then
      { messages := [.error "Erro" "O diretório selecionado não parece ser um repositório Git."],
        reportsWritten := [] }
    else
      match env.openResult with
      | .error e =>
        { messages := [.error "Erro" ("Não foi possível abrir o repositório. Detalhes: " ++ e)],
          reportsWritten := [] }
      | .ok repo =>
        let branch_name := getActiveBranch repo
        let commits_in_range := selectCommitsInRange now repo branch_name
        if commits_in_range.isEmpty then
          { messages := [.info "Informação"
              ("Não foram encontrados commits no branch " ++ branch_name ++ " no repositório.")],
            reportsWritten := [] }
        else
          { messages := [.info "Sucesso"
              ("Foram analisados " ++ toString commits_in_range.length ++
                " commits no branch " ++ branch_name ++
                ". Relatórios gerados em CSV para cada métrica!")],
            reportsWritten := saveMetricsToCsv (generateMetrics repo commits_in_range) }

/-! ## Specification-side views of a commit list

These definitions read quantities directly off a commit list; the fold
characterization lemmas below connect them to the aggregation state. -/

/-- Number of commits of author `a` in the list. -/
def countAuthor (commits : List Commit) (a : String) : Nat :=
  (commits.filter (fun c => decide (c.author = a))).length

/-- The timestamps of author `a`, in list order. -/
def authorTimes (commits : List Commit) (a : String) : List Int :=
  (commits.filter (fun c => decide (c.author = a))).map Commit.committedDate

/-- Consecutive differences of a timestamp list, in hours. -/
def intervalsOf : List Int → List ℚ
  | [] => []
  | [_] => []
  | a :: b :: rest => hoursDiff a b :: intervalsOf (b :: rest)

/-- Insertions that a file-stat list attributes to file `f`. -/
def fileInsertionsInList (files : List (String × FileStat)) (f : String) : Nat :=
  ((files.filter (fun e => decide (e.1 = f))).map (fun e => e.2.insertions)).sum

/-- Insertions of commit `c` on file `f`. -/
def fileInsertionsIn (c : Commit) (f : String) : Nat :=
  fileInsertionsInList c.files f

/-- Total insertions on file `f` over a commit list. -/
def totalFileInsertions (commits : List Commit) (f : String) : Nat :=
  (commits.map (fun c => fileInsertionsIn c f)).sum

/-- Insertions on file `f` over the commits of author `a`. -/
def authorFileInsertions (commits : List Commit) (f : String) (a : String) : Nat :=
  ((commits.filter (fun c => decide (c.author = a))).map
    (fun c => fileInsertionsIn c f)).sum

/-- Line changes (insertions plus deletions) that a file-stat list attributes
to file `f`. -/
def fileChangesInList (files : List (String × FileStat)) (f : String) : Nat :=
  ((files.filter (fun e => decide (e.1 = f))).map
    (fun e => e.2.insertions + e.2.deletions)).sum

/-- Line changes of commit `c` on file `f`. -/
def fileChangesIn (c : Commit) (f : String) : Nat :=
  fileChangesInList c.files f

/-- Line changes on file `f` over the commits of author `a`. -/
def authorFileChanges (commits : List Commit) (f : String) (a : String) : Nat :=
  ((commits.filter (fun c => decide (c.author = a))).map
    (fun c => fileChangesIn c f)).sum

/-- The distinct authors of a commit list, in order of first appearance. -/
def distinctAuthors (commits : List Commit) : List String :=
  (commits.map Commit.author).dedup

/-- Insertions recorded for file `f` in the aggregation state, 0 when the file
is absent. -/
def fileInsVal (s : AggState) (f : String) : Nat :=
  match dictGet? s.file_stats f with
  | some fs => fs.insertions
  | none => 0

/-- Line changes recorded for the pair (file `f`, author `a`) in the nested
`file_changes_by_author` dict, 0 when absent. -/
def fileChangesVal (s : AggState) (f a : String) : Nat :=
  match dictGet? s.file_changes_by_author f with
  | some inner => (dictGet? inner a).getD 0
  | none => 0

/-! ## Concrete objects used to instantiate hypotheses of the claim theorems -/

/-- A commit used in concrete instantiations: alice at time 100 touching no
files. -/
def wCommitRecent : Commit :=
  ⟨"alice", 100, []⟩

/-- A commit used in concrete instantiations: alice at time 0 touching no
files. -/
def wCommitOld : Commit :=
  ⟨"alice", 0, []⟩

/-- A repository whose master branch has one commit at time 100. -/
def wRepoRecent : Repo :=
  ⟨["master"], "master", fun _ => [wCommitRecent]⟩

/-- A repository whose master branch has one commit at time 0. -/
def wRepoOld : Repo :=
  ⟨["master"], "master", fun _ => [wCommitOld]⟩

/-- A repository whose master branch has no commits. -/
def wRepoEmpty : Repo :=
  ⟨["master"], "master", fun _ => []⟩

/-- Two commits by alice two hours apart, touching no files. -/
def wCommitsAlicePair : List Commit :=
  [⟨"alice", 0, []⟩, ⟨"alice", 7200, []⟩]

/-- Two commits by different authors touching the same file. -/
def wCommitsTwoAuthors : List Commit :=
  [⟨"alice", 0, [("f.py", ⟨3, 1⟩)]⟩, ⟨"bob", 50, [("f.py", ⟨4, 2⟩)]⟩]

theorem dictGet?_dictUpdate_self (d : List (String × β)) (k : String) (d0 : β)
    (f : β → β) :
    dictGet? (dictUpdate d k d0 f) k = some (f ((dictGet? d k).getD d0)) := by
  induction d with
  | nil => simp [dictGet?, dictUpdate]
  | cons p rest ih =>
    obtain ⟨k1, v⟩ := p
    by_cases h : k1 = k
    · simp [dictGet?, dictUpdate, h]
    · simp [dictGet?, dictUpdate, h, ih]

theorem dictGet?_dictUpdate_ne (d : List (String × β)) {k k2 : String}
    (h : k ≠ k2) (d0 : β) (f : β → β) :
    dictGet? (dictUpdate d k d0 f) k2 = dictGet? d k2 := by
  induction d with
  | nil => simp [dictGet?, dictUpdate, h]
  | cons p rest ih =>
    obtain ⟨k1, v⟩ := p
    by_cases h1 : k1 = k
    · subst h1
      simp [dictGet?, dictUpdate, h]
    · simp only [dictUpdate, h1, if_false]
      by_cases h2 : k1 = k2 <;> simp [dictGet?, h2, ih]

theorem keys_dictUpdate (d : List (String × β)) (k : String) (d0 : β) (f : β → β) :
    keys (dictUpdate d k d0 f) = if k ∈ keys d then keys d else keys d ++ [k] := by
  induction d with
  | nil => simp [keys, dictUpdate]
  | cons p rest ih =>
    obtain ⟨k1, v⟩ := p
    by_cases h : k1 = k
    · simp [keys, dictUpdate, h]
    · have hne : k ≠ k1 := fun hk => h hk.symm
      simp only [keys, List.map_cons] at ih ⊢
      simp only [dictUpdate, h, if_false, List.map_cons]
      rw [ih]
      by_cases hmem : k ∈ List.map Prod.fst rest
      · simp [List.mem_cons, hne, hmem]
      · simp [List.mem_cons, hne, hmem]

theorem mem_keys_dictUpdate (d : List (String × β)) (k x : String) (d0 : β)
    (f : β → β) :
    x ∈ keys (dictUpdate d k d0 f) ↔ x ∈ keys d ∨ x = k := by
  rw [keys_dictUpdate]
  by_cases h : k ∈ keys d
  · simp only [h, if_true]
    constructor
    · exact fun hx => Or.inl hx
    · rintro (hx | rfl)
      · exact hx
      · exact h
  · simp [h]

theorem nodup_keys_dictUpdate (d : List (String × β)) (k : String) (d0 : β)
    (f : β → β) (hd : (keys d).Nodup) : (keys (dictUpdate d k d0 f)).Nodup := by
  rw [keys_dictUpdate]
  by_cases h : k ∈ keys d
  · simpa [h] using hd
  · simp only [h, if_false]
    simpa [List.nodup_append] using ⟨hd, h⟩

theorem dictGet?_eq_none_iff (d : List (String × β)) (k : String) :
    dictGet? d k = none ↔ k ∉ keys d := by
  induction d with
  | nil => simp [dictGet?, keys]
  | cons p rest ih =>
    obtain ⟨k1, v⟩ := p
    by_cases h : k1 = k
    · subst h
      simp [dictGet?, keys]
    · have hne : k ≠ k1 := fun hk => h hk.symm
      simp [dictGet?, keys, h, hne, ih]

theorem mem_of_dictGet?_eq_some {d : List (String × β)} {k : String} {v : β}
    (h : dictGet? d k = some v) : (k, v) ∈ d := by
  induction d with
  | nil => simp [dictGet?] at h
  | cons p rest ih =>
    obtain ⟨k1, v1⟩ := p
    by_cases h1 : k1 = k
    · subst h1
      simp [dictGet?] at h
      simp [h]
    · simp [dictGet?, h1] at h
      simp [ih h]

theorem dictGet?_eq_some_of_mem_nodup {d : List (String × β)} {k : String} {v : β}
    (hnd : (keys d).Nodup) (hmem : (k, v) ∈ d) : dictGet? d k = some v := by
  induction d with
  | nil => simp at hmem
  | cons p rest ih =>
    obtain ⟨k1, v1⟩ := p
    simp only [keys, List.map_cons, List.nodup_cons] at hnd
    rcases List.mem_cons.mp hmem with h | h
    · obtain ⟨rfl, rfl⟩ := Prod.mk.injEq .. ▸ h
      simp_all [dictGet?]
    · have hk : k1 ≠ k := by
        intro hk
        subst hk
        exact hnd.1 (List.mem_map.mpr ⟨(k1, v), h, rfl⟩)
      simpa [dictGet?, hk] using ih (by simpa [keys] using hnd.2) h

theorem sumVals_dictUpdate_incr (d : List (String × Nat)) (k : String) :
    sumVals (dictUpdate d k 0 (fun n => n + 1)) = sumVals d + 1 := by
  induction d with
  | nil => simp [sumVals, dictUpdate]
  | cons p rest ih =>
    obtain ⟨k1, v⟩ := p
    by_cases h : k1 = k
    · simp [sumVals, dictUpdate, h]
      omega
    · simp [sumVals, dictUpdate, h] at ih ⊢
      omega

theorem valsP_dictUpdate {P : β → Prop} {d : List (String × β)} {k : String}
    {d0 : β} {f : β → β} (hP : ∀ p ∈ d, P p.2)
    (hPnew : P (f ((dictGet? d k).getD d0))) :
    ∀ p ∈ dictUpdate d k d0 f, P p.2 := by
  induction d with
  | nil =>
    intro p hp
    simp [dictUpdate] at hp
    subst hp
    simpa [dictGet?] using hPnew
  | cons q rest ih =>
    obtain ⟨k1, v⟩ := q
    intro p hp
    by_cases h : k1 = k
    · simp only [dictUpdate, h, if_true] at hp
      rcases List.mem_cons.mp hp with h2 | h2
      · subst h2
        simpa [dictGet?, h] using hPnew
      · exact hP p (List.mem_cons_of_mem _ h2)
    · simp only [dictUpdate, h, if_false] at hp
      rcases List.mem_cons.mp hp with h2 | h2
      · subst h2
        exact hP (k1, v) (List.mem_cons_self _ _)
      · exact ih (fun q hq => hP q (List.mem_cons_of_mem _ hq))
          (by simpa [dictGet?, h] using hPnew) p h2

theorem perm_insertStable (le : α → α → Bool) (x : α) (l : List α) :
    List.Perm (insertStable le x l) (x :: l) := by
  induction l with
  | nil => simp [insertStable]
  | cons y ys ih =>
    by_cases h : le y x
    · simpa [insertStable, h] using (ih.cons y).trans (List.Perm.swap x y ys)
    · simp [insertStable, h]

theorem mem_insertStable (le : α → α → Bool) (x a : α) (l : List α) :
    a ∈ insertStable le x l ↔ a = x ∨ a ∈ l := by
  rw [(perm_insertStable le x l).mem_iff]
  simp

theorem pairwise_insertStable (le : α → α → Bool)
    (htr : ∀ a b c, le a b = true → le b c = true → le a c = true)
    (hto : ∀ a b, le a b = true ∨ le b a = true) (x : α) (l : List α)
    (hl : l.Pairwise (fun a b => le a b = true)) :
    (insertStable le x l).Pairwise (fun a b => le a b = true) := by
  induction l with
  | nil => simp [insertStable]
  | cons y ys ih =>
    rcases List.pairwise_cons.mp hl with ⟨hy, hys⟩
    by_cases h : le y x
    · simp only [insertStable, h, if_true]
      refine List.pairwise_cons.mpr ⟨?_, ih hys⟩
      intro b hb
      rcases (mem_insertStable le x b ys).mp hb with rfl | hb
      · exact h
      · exact hy b hb
    · simp only [insertStable, h, if_false]
      have hxy : le x y = true := by
        rcases hto x y with h1 | h1
        · exact h1
        · exact absurd h1 (by simpa using h)
      refine List.pairwise_cons.mpr ⟨?_, hl⟩
      intro b hb
      rcases List.mem_cons.mp hb with rfl | hb
      · exact hxy
      · exact htr x y b hxy (hy b hb)

theorem pySort_perm (le : α → α → Bool) (l : List α) : List.Perm (pySort le l) l := by
  suffices h : ∀ (l acc : List α),
      List.Perm (l.foldl (fun acc x => insertStable le x acc) acc) (acc ++ l) by
    simpa using h l []
  intro l
  induction l with
  | nil => simp
  | cons x xs ih =>
    intro acc
    have h1 : (x :: xs).foldl (fun acc x => insertStable le x acc) acc
        = xs.foldl (fun acc x => insertStable le x acc) (insertStable le x acc) := by
      simp
    rw [h1]
    exact (ih (insertStable le x acc)).trans
      (((perm_insertStable le x acc).append_right xs).trans List.perm_middle.symm)

theorem mem_pySort (le : α → α → Bool) (a : α) (l : List α) :
    a ∈ pySort le l ↔ a ∈ l :=
  (pySort_perm le l).mem_iff

theorem length_pySort (le : α → α → Bool) (l : List α) :
    (pySort le l).length = l.length :=
  (pySort_perm le l).length_eq

theorem pairwise_pySort (le : α → α → Bool)
    (htr : ∀ a b c, le a b = true → le b c = true → le a c = true)
    (hto : ∀ a b, le a b = true ∨ le b a = true) (l : List α) :
    (pySort le l).Pairwise (fun a b => le a b = true) := by
  suffices h : ∀ (l acc : List α), acc.Pairwise (fun a b => le a b = true) →
      (l.foldl (fun acc x => insertStable le x acc) acc).Pairwise
        (fun a b => le a b = true) by
    exact h l [] (by simp)
  intro l
  induction l with
  | nil => exact fun acc h => by simpa using h
  | cons x xs ih =>
    intro acc hacc
    simpa using ih (insertStable le x acc)
      (pairwise_insertStable le htr hto x acc hacc)

theorem charListLe_total (a b : List Char) :
    charListLe a b = true ∨ charListLe b a = true := by
  induction a generalizing b with
  | nil => left; simp [charListLe]
  | cons x xs ih =>
    cases b with
    | nil => right; simp [charListLe]
    | cons y ys =>
      by_cases h1 : x.toNat < y.toNat
      · left; simp [charListLe, h1]
      · by_cases h2 : y.toNat < x.toNat
        · right; simp [charListLe, h2]
        · rcases ih ys with h | h
          · left; simpa [charListLe, h1, h2] using h
          · right; simpa [charListLe, h1, h2] using h

theorem charListLe_trans (a b c : List Char) (h1 : charListLe a b = true)
    (h2 : charListLe b c = true) : charListLe a c = true := by
  induction a generalizing b c with
  | nil => simp [charListLe]
  | cons x xs ih =>
    cases b with
    | nil => simp [charListLe] at h1
    | cons y ys =>
      cases c with
      | nil => simp [charListLe] at h2
      | cons z zs =>
        simp only [charListLe] at h1 h2 ⊢
        by_cases hxy : x.toNat < y.toNat
        · by_cases hyz : y.toNat < z.toNat
          · simp [show x.toNat < z.toNat by omega]
          · by_cases hzy : z.toNat < y.toNat
            · simp [hyz, hzy] at h2
            · simp [show x.toNat < z.toNat by omega]
        · by_cases hyx : y.toNat < x.toNat
          · simp [hxy, hyx] at h1
          · by_cases hyz : y.toNat < z.toNat
            · simp [show x.toNat < z.toNat by omega]
            · by_cases hzy : z.toNat < y.toNat
              · simp [hyz, hzy] at h2
              · have hxz : ¬ x.toNat < z.toNat := by omega
                have hzx : ¬ z.toNat < x.toNat := by omega
                simp only [hxy, hyx, if_false, if_true] at h1
                simp only [hyz, hzy, if_false, if_true] at h2
                simp only [hxz, hzx, if_false, if_true]
                exact ih ys zs h1 h2

/-! ## Fold characterization lemmas -/

theorem fileFold_fixed (a : String) (files : List (String × FileStat))
    (s : AggState) :
    (files.foldl (processFile a) s).commits_by_author = s.commits_by_author ∧
    (files.foldl (processFile a) s).commits_by_day = s.commits_by_day ∧
    (files.foldl (processFile a) s).last_commit_time_by_author =
      s.last_commit_time_by_author ∧
    (files.foldl (processFile a) s).time_diffs_by_author =
      s.time_diffs_by_author := by
  induction files generalizing s with
  | nil => simp
  | cons e rest ih =>
    have h := ih (processFile a s e)
    simpa [processFile] using h

theorem processCommit_commits_by_author (s : AggState) (c : Commit) :
    (processCommit s c).commits_by_author =
      dictUpdate s.commits_by_author c.author 0 (fun n => n + 1) := by
  simp [processCommit, (fileFold_fixed c.author c.files _).1]

theorem processCommit_commits_by_day (s : AggState) (c : Commit) :
    (processCommit s c).commits_by_day =
      dictUpdate s.commits_by_day (dayOfWeekName c.committedDate) 0
        (fun n => n + 1) := by
  simp [processCommit, (fileFold_fixed c.author c.files _).2.1]

theorem processCommit_last_commit_time (s : AggState) (c : Commit) :
    (processCommit s c).last_commit_time_by_author =
      dictSet s.last_commit_time_by_author c.author c.committedDate := by
  simp [processCommit, (fileFold_fixed c.author c.files _).2.2.1]

theorem processCommit_time_diffs (s : AggState) (c : Commit) :
    (processCommit s c).time_diffs_by_author =
      match dictGet? s.last_commit_time_by_author c.author with
      | some prev =>
        dictUpdate s.time_diffs_by_author c.author []
          (fun l => l ++ [hoursDiff prev c.committedDate])
      | none => dictUpdate s.time_diffs_by_author c.author [] (fun l => l) := by
  simp only [processCommit, (fileFold_fixed c.author c.files _).2.2.2]

theorem runAgg_append_singleton (p : List Commit) (c : Commit) :
    runAgg (p ++ [c]) = processCommit (runAgg p) c := by
  simp [runAgg, List.foldl_append]

theorem countAuthor_append (p : List Commit) (c : Commit) (a : String) :
    countAuthor (p ++ [c]) a =
      countAuthor p a + (if c.author = a then 1 else 0) := by
  by_cases h : c.author = a <;> simp [countAuthor, List.filter_append, h]

theorem authorTimes_append (p : List Commit) (c : Commit) (a : String) :
    authorTimes (p ++ [c]) a =
      authorTimes p a ++ (if c.author = a then [c.committedDate] else []) := by
  by_cases h : c.author = a <;> simp [authorTimes, List.filter_append, h]

theorem authorTimes_length (p : List Commit) (a : String) :
    (authorTimes p a).length = countAuthor p a := by
  simp [authorTimes, countAuthor]

theorem countAuthor_eq_zero_iff (p : List Commit) (a : String) :
    countAuthor p a = 0 ↔ authorTimes p a = [] := by
  rw [← authorTimes_length, List.length_eq_zero]

theorem dictGet?_runAgg_commits_by_author (p : List Commit) (a : String) :
    dictGet? (runAgg p).commits_by_author a =
      if countAuthor p a = 0 then none else some (countAuthor p a) := by
  induction p using List.reverseRecOn with
  | nil => simp [runAgg, initAggState, dictGet?, countAuthor]
  | append_singleton p c ih =>
    rw [runAgg_append_singleton, processCommit_commits_by_author,
      countAuthor_append]
    by_cases h : c.author = a
    · subst h
      rw [dictGet?_dictUpdate_self, ih]
      by_cases h0 : countAuthor p c.author = 0 <;> simp [h0]
    · rw [dictGet?_dictUpdate_ne _ h, ih]
      simp [h]

theorem sumVals_runAgg_commits_by_author (p : List Commit) :
    sumVals (runAgg p).commits_by_author = p.length := by
  induction p using List.reverseRecOn with
  | nil => simp [runAgg, initAggState, sumVals]
  | append_singleton p c ih =>
    rw [runAgg_append_singleton, processCommit_commits_by_author]
    have h := sumVals_dictUpdate_incr (runAgg p).commits_by_author c.author
    simp [h, ih]

theorem intervalsOf_append_singleton (l : List Int) (t : Int) :
    intervalsOf (l ++ [t]) =
      intervalsOf l ++
        (match l.getLast? with
         | none => []
         | some prev => [hoursDiff prev t]) := by
  induction l with
  | nil => simp [intervalsOf]
  | cons a rest ih =>
    cases rest with
    | nil => simp [intervalsOf]
    | cons b rest2 =>
      simp only [List.cons_append, List.append_eq, intervalsOf] at ih ⊢
      rw [ih]
      simp [List.getLast?_cons_cons]

theorem timeState_runAgg (p : List Commit) (a : String) :
    dictGet? (runAgg p).time_diffs_by_author a =
      (if countAuthor p a = 0 then none
       else some (intervalsOf (authorTimes p a))) ∧
    dictGet? (runAgg p).last_commit_time_by_author a =
      (authorTimes p a).getLast? := by
  induction p using List.reverseRecOn with
  | nil => simp [runAgg, initAggState, dictGet?, countAuthor, authorTimes]
  | append_singleton p c ih =>
    obtain ⟨ihT, ihL⟩ := ih
    rw [runAgg_append_singleton]
    constructor
    · rw [processCommit_time_diffs]
      by_cases h : c.author = a
      · subst h
        rw [ihL]
        by_cases h0 : countAuthor p c.author = 0
        · have htimes : authorTimes p c.author = [] :=
            (countAuthor_eq_zero_iff p c.author).mp h0
          rw [htimes]
          simp only [List.getLast?_nil]
          rw [dictGet?_dictUpdate_self, ihT]
          simp [h0, countAuthor_append, authorTimes_append, htimes, intervalsOf]
        · have htimes : authorTimes p c.author ≠ [] := by
            intro he
            exact h0 ((countAuthor_eq_zero_iff p c.author).mpr he)
          rcases hprev : (authorTimes p c.author).getLast? with _ | prev
          · exact absurd (List.getLast?_eq_none_iff.mp hprev) htimes
          · dsimp only
            rw [dictGet?_dictUpdate_self, ihT]
            simp only [h0, if_false, Option.getD_some]
            simp [countAuthor_append, authorTimes_append,
              intervalsOf_append_singleton, hprev, h0]
      · have hne : c.author ≠ a := h
        rcases hget : dictGet? (runAgg p).last_commit_time_by_author c.author
          with _ | prev
        · dsimp only
          rw [dictGet?_dictUpdate_ne _ hne, ihT, countAuthor_append,
            authorTimes_append]
          simp [h]
        · dsimp only
          rw [dictGet?_dictUpdate_ne _ hne, ihT, countAuthor_append,
            authorTimes_append]
          simp [h]
    · rw [processCommit_last_commit_time]
      by_cases h : c.author = a
      · subst h
        rw [dictSet, dictGet?_dictUpdate_self, authorTimes_append]
        simp
      · rw [dictSet, dictGet?_dictUpdate_ne _ h, ihL, authorTimes_append]
        simp [h]

theorem fileInsVal_processFile (a0 : String) (s : AggState)
    (e : String × FileStat) (f : String) :
    fileInsVal (processFile a0 s e) f =
      fileInsVal s f + (if e.1 = f then e.2.insertions else 0) := by
  by_cases h : e.1 = f
  · subst h
    simp only [fileInsVal, processFile, dictGet?_dictUpdate_self, if_pos rfl]
    rcases hg : dictGet? s.file_stats e.1 with _ | fs
    · simp [hg]
    · simp [hg]
  · simp only [fileInsVal, processFile]
    rw [dictGet?_dictUpdate_ne _ h]
    simp [h]

theorem fileInsVal_fileFold (a0 : String) (files : List (String × FileStat))
    (s : AggState) (f : String) :
    fileInsVal (files.foldl (processFile a0) s) f =
      fileInsVal s f + fileInsertionsInList files f := by
  induction files generalizing s with
  | nil => simp [fileInsertionsInList]
  | cons e rest ih =>
    rw [List.foldl_cons, ih, fileInsVal_processFile]
    by_cases h : e.1 = f <;> simp [fileInsertionsInList, List.filter_cons, h] <;>
      omega

theorem fileInsVal_processCommit (s : AggState) (c : Commit) (f : String) :
    fileInsVal (processCommit s c) f = fileInsVal s f + fileInsertionsIn c f := by
  show fileInsVal (c.files.foldl (processFile c.author) _) f = _
  rw [fileInsVal_fileFold]
  rfl

theorem fileInsVal_runAgg (p : List Commit) (f : String) :
    fileInsVal (runAgg p) f = totalFileInsertions p f := by
  induction p using List.reverseRecOn with
  | nil => simp [runAgg, initAggState, fileInsVal, dictGet?, totalFileInsertions]
  | append_singleton p c ih =>
    rw [runAgg_append_singleton, fileInsVal_processCommit, ih]
    simp [totalFileInsertions]

theorem fileChangesVal_processFile (a0 : String) (s : AggState)
    (e : String × FileStat) (f a : String) :
    fileChangesVal (processFile a0 s e) f a =
      fileChangesVal s f a +
        (if e.1 = f ∧ a0 = a then e.2.insertions + e.2.deletions else 0) := by
  by_cases h : e.1 = f
  · subst h
    simp only [fileChangesVal, processFile, dictGet?_dictUpdate_self]
    by_cases ha : a0 = a
    · subst ha
      rw [dictGet?_dictUpdate_self]
      rcases hg : dictGet? s.file_changes_by_author e.1 with _ | inner
      · simp [hg, dictGet?]
      · simp [hg]
    · rw [dictGet?_dictUpdate_ne _ ha]
      rcases hg : dictGet? s.file_changes_by_author e.1 with _ | inner
      · simp [hg, dictGet?, ha]
      · simp [hg, ha]
  · simp only [fileChangesVal, processFile]
    rw [dictGet?_dictUpdate_ne _ h]
    simp [h]

theorem fileChangesVal_fileFold (a0 : String) (files : List (String × FileStat))
    (s : AggState) (f a : String) :
    fileChangesVal (files.foldl (processFile a0) s) f a =
      fileChangesVal s f a +
        (if a0 = a then fileChangesInList files f else 0) := by
  induction files generalizing s with
  | nil => simp [fileChangesInList]
  | cons e rest ih =>
    rw [List.foldl_cons, ih, fileChangesVal_processFile]
    by_cases h : e.1 = f <;> by_cases ha : a0 = a <;>
      simp [fileChangesInList, List.filter_cons, h, ha] <;> omega

theorem fileChangesVal_processCommit (s : AggState) (c : Commit) (f a : String) :
    fileChangesVal (processCommit s c) f a =
      fileChangesVal s f a + (if c.author = a then fileChangesIn c f else 0) := by
  show fileChangesVal (c.files.foldl (processFile c.author) _) f a = _
  rw [fileChangesVal_fileFold]
  rfl

theorem fileChangesVal_runAgg (p : List Commit) (f a : String) :
    fileChangesVal (runAgg p) f a = authorFileChanges p f a := by
  induction p using List.reverseRecOn with
  | nil =>
    simp [runAgg, initAggState, fileChangesVal, dictGet?, authorFileChanges]
  | append_singleton p c ih =>
    rw [runAgg_append_singleton, fileChangesVal_processCommit, ih]
    by_cases h : c.author = a <;>
      simp [authorFileChanges, List.filter_append, h]

theorem mem_keys_lines_fileFold (a0 : String) (files : List (String × FileStat))
    (s : AggState) (x : String)
    (hx : x ∈ keys ((files.foldl (processFile a0) s).lines_by_author)) :
    x ∈ keys s.lines_by_author ∨ x = a0 := by
  induction files generalizing s with
  | nil => exact Or.inl (by simpa using hx)
  | cons e rest ih =>
    rcases ih (processFile a0 s e) (by simpa using hx) with h | h
    · simp only [processFile] at h
      rcases (mem_keys_dictUpdate _ _ _ _ _).mp h with h2 | h2
      · exact Or.inl h2
      · exact Or.inr h2
    · exact Or.inr h

theorem mem_keys_lines_runAgg (p : List Commit) (x : String)
    (hx : x ∈ keys (runAgg p).lines_by_author) :
    ∃ c ∈ p, c.author = x ∧ c.files ≠ [] := by
  induction p using List.reverseRecOn with
  | nil => simp [runAgg, initAggState, keys] at hx
  | append_singleton p c ih =>
    rw [runAgg_append_singleton] at hx
    rcases hfiles : c.files with _ | ⟨e, rest⟩
    · have hx2 : x ∈ keys (runAgg p).lines_by_author := by
        have : (processCommit (runAgg p) c).lines_by_author =
            (runAgg p).lines_by_author := by
          show (c.files.foldl (processFile c.author) _).lines_by_author = _
          rw [hfiles]
          rfl
        rwa [this] at hx
      obtain ⟨c2, hc2, h1, h2⟩ := ih hx2
      exact ⟨c2, List.mem_append_left _ hc2, h1, h2⟩
    · have hx2 := mem_keys_lines_fileFold c.author c.files _ x (by exact hx)
      rcases hx2 with h | h
      · obtain ⟨c2, hc2, h1, h2⟩ := ih (by exact h)
        exact ⟨c2, List.mem_append_left _ hc2, h1, h2⟩
      · exact ⟨c, List.mem_append_right _ (List.mem_singleton_self c), h.symm,
          by simp [hfiles]⟩

theorem nodupState_processFile (a0 : String) (s : AggState)
    (e : String × FileStat) (h1 : (keys s.file_stats).Nodup)
    (h3 : (keys s.file_changes_by_author).Nodup)
    (h4 : ∀ q ∈ s.file_changes_by_author, (keys q.2).Nodup) :
    (keys (processFile a0 s e).file_stats).Nodup ∧
    (keys (processFile a0 s e).file_changes_by_author).Nodup ∧
    (∀ q ∈ (processFile a0 s e).file_changes_by_author, (keys q.2).Nodup) := by
  refine ⟨nodup_keys_dictUpdate _ _ _ _ h1, nodup_keys_dictUpdate _ _ _ _ h3, ?_⟩
  intro q hq
  refine valsP_dictUpdate (P := fun v => (keys v).Nodup) h4 ?_ q hq
  apply nodup_keys_dictUpdate
  rcases hg : dictGet? s.file_changes_by_author e.1 with _ | inner
  · simp [keys]
  · simpa using h4 (e.1, inner) (mem_of_dictGet?_eq_some hg)

theorem nodupState_fileFold (a0 : String) (files : List (String × FileStat))
    (s : AggState) (h1 : (keys s.file_stats).Nodup)
    (h3 : (keys s.file_changes_by_author).Nodup)
    (h4 : ∀ q ∈ s.file_changes_by_author, (keys q.2).Nodup) :
    (keys (files.foldl (processFile a0) s).file_stats).Nodup ∧
    (keys (files.foldl (processFile a0) s).file_changes_by_author).Nodup ∧
    (∀ q ∈ (files.foldl (processFile a0) s).file_changes_by_author,
      (keys q.2).Nodup) := by
  induction files generalizing s with
  | nil => exact ⟨h1, h3, h4⟩
  | cons e rest ih =>
    obtain ⟨g1, g3, g4⟩ := nodupState_processFile a0 s e h1 h3 h4
    exact ih (processFile a0 s e) g1 g3 g4

theorem nodupState_processCommit (s : AggState) (c : Commit)
    (h1 : (keys s.file_stats).Nodup)
    (h2 : (keys s.time_diffs_by_author).Nodup)
    (h3 : (keys s.file_changes_by_author).Nodup)
    (h4 : ∀ q ∈ s.file_changes_by_author, (keys q.2).Nodup) :
    (keys (processCommit s c).file_stats).Nodup ∧
    (keys (processCommit s c).time_diffs_by_author).Nodup ∧
    (keys (processCommit s c).file_changes_by_author).Nodup ∧
    (∀ q ∈ (processCommit s c).file_changes_by_author, (keys q.2).Nodup) := by
  have htd : (keys (processCommit s c).time_diffs_by_author).Nodup := by
    rw [processCommit_time_diffs]
    rcases dictGet? s.last_commit_time_by_author c.author with _ | prev
    · exact nodup_keys_dictUpdate _ _ _ _ h2
    · exact nodup_keys_dictUpdate _ _ _ _ h2
  refine ⟨?_, htd, ?_, ?_⟩
  · show (keys ((c.files.foldl (processFile c.author) _).file_stats)).Nodup
    refine (nodupState_fileFold c.author c.files _ ?_ ?_ ?_).1
    · exact h1
    · exact h3
    · exact h4
  · show (keys
      ((c.files.foldl (processFile c.author) _).file_changes_by_author)).Nodup
    refine (nodupState_fileFold c.author c.files _ ?_ ?_ ?_).2.1
    · exact h1
    · exact h3
    · exact h4
  · show ∀ q ∈ (c.files.foldl (processFile c.author) _).file_changes_by_author,
      (keys q.2).Nodup
    refine (nodupState_fileFold c.author c.files _ ?_ ?_ ?_).2.2
    · exact h1
    · exact h3
    · exact h4

theorem nodupState_runAgg (p : List Commit) :
    (keys (runAgg p).file_stats).Nodup ∧
    (keys (runAgg p).time_diffs_by_author).Nodup ∧
    (keys (runAgg p).file_changes_by_author).Nodup ∧
    (∀ q ∈ (runAgg p).file_changes_by_author, (keys q.2).Nodup) := by
  induction p using List.reverseRecOn with
  | nil => simp [runAgg, initAggState, keys]
  | append_singleton p c ih =>
    obtain ⟨h1, h2, h3, h4⟩ := ih
    rw [runAgg_append_singleton]
    exact nodupState_processCommit (runAgg p) c h1 h2 h3 h4

theorem sum_map_add_nat (A : List String) (f g : String → Nat) :
    (A.map (fun a => f a + g a)).sum = (A.map f).sum + (A.map g).sum := by
  induction A with
  | nil => simp
  | cons x rest ih =>
    simp only [List.map_cons, List.sum_cons, ih]
    omega

theorem sum_map_ite_of_not_mem (A : List String) (k : String) (v : Nat)
    (hk : k ∉ A) : (A.map (fun a => if k = a then v else 0)).sum = 0 := by
  induction A with
  | nil => simp
  | cons x rest ih =>
    have hx : k ≠ x := fun h => hk (h ▸ List.mem_cons_self x rest)
    have hr : k ∉ rest := fun h => hk (List.mem_cons_of_mem x h)
    simp [hx, ih hr]

theorem sum_map_ite_of_nodup (A : List String) (k : String) (v : Nat)
    (hnd : A.Nodup) (hk : k ∈ A) :
    (A.map (fun a => if k = a then v else 0)).sum = v := by
  induction A with
  | nil => simp at hk
  | cons x rest ih =>
    rcases List.nodup_cons.mp hnd with ⟨hx, hrest⟩
    rcases List.mem_cons.mp hk with rfl | hk2
    · simp [sum_map_ite_of_not_mem rest k v hx]
    · have hne : k ≠ x := fun h => hx (h ▸ hk2)
      simp [hne, ih hrest hk2]

theorem sum_authorFileInsertions (p : List Commit) (f : String) (A : List String)
    (hnd : A.Nodup) (hcov : ∀ c ∈ p, c.author ∈ A) :
    (A.map (fun a => authorFileInsertions p f a)).sum =
      totalFileInsertions p f := by
  induction p with
  | nil => simp [authorFileInsertions, totalFileInsertions]
  | cons c rest ih =>
    have hsplit : ∀ a, authorFileInsertions (c :: rest) f a =
        (if c.author = a then fileInsertionsIn c f else 0) +
          authorFileInsertions rest f a := by
      intro a
      by_cases h : c.author = a <;>
        simp [authorFileInsertions, List.filter_cons, h]
    have hcov2 : ∀ c2 ∈ rest, c2.author ∈ A :=
      fun c2 hc2 => hcov c2 (List.mem_cons_of_mem c hc2)
    calc (A.map (fun a => authorFileInsertions (c :: rest) f a)).sum
        = (A.map (fun a =>
            (if c.author = a then fileInsertionsIn c f else 0) +
              authorFileInsertions rest f a)).sum := by
          simp only [hsplit]
      _ = (A.map (fun a => if c.author = a then fileInsertionsIn c f else 0)).sum
            + (A.map (fun a => authorFileInsertions rest f a)).sum :=
          sum_map_add_nat A _ _
      _ = fileInsertionsIn c f + totalFileInsertions rest f := by
          rw [sum_map_ite_of_nodup A c.author _ hnd
            (hcov c (List.mem_cons_self c rest)), ih hcov2]
      _ = totalFileInsertions (c :: rest) f := by
          simp [totalFileInsertions]

theorem countAuthor_commitsSorted (commits : List Commit) (a : String) :
    countAuthor (commitsSorted commits) a = countAuthor commits a :=
  ((pySort_perm _ commits).filter _).length_eq

theorem totalFileInsertions_commitsSorted (commits : List Commit) (f : String) :
    totalFileInsertions (commitsSorted commits) f =
      totalFileInsertions commits f :=
  ((pySort_perm _ commits).map _).sum_eq

theorem authorFileChanges_commitsSorted (commits : List Commit) (f a : String) :
    authorFileChanges (commitsSorted commits) f a =
      authorFileChanges commits f a :=
  (((pySort_perm _ commits).filter _).map _).sum_eq

theorem intervalsOf_length (l : List Int) :
    (intervalsOf l).length = l.length - 1 := by
  induction l with
  | nil => simp [intervalsOf]
  | cons a rest ih =>
    cases rest with
    | nil => simp [intervalsOf]
    | cons b rest2 =>
      simp only [intervalsOf, List.length_cons] at ih ⊢
      omega

theorem decide_flip_trans {β : Type} [LinearOrder β] (f : α → β) :
    ∀ a b c : α, decide (f b ≤ f a) = true → decide (f c ≤ f b) = true →
      decide (f c ≤ f a) = true := by
  intro a b c h1 h2
  simp only [decide_eq_true_eq] at h1 h2 ⊢
  exact le_trans h2 h1

theorem decide_flip_total {β : Type} [LinearOrder β] (f : α → β) :
    ∀ a b : α, decide (f b ≤ f a) = true ∨ decide (f a ≤ f b) = true := by
  intro a b
  simp only [decide_eq_true_eq]
  exact le_total (f b) (f a)

theorem decide_fwd_trans {β : Type} [LinearOrder β] (f : α → β) :
    ∀ a b c : α, decide (f a ≤ f b) = true → decide (f b ≤ f c) = true →
      decide (f a ≤ f c) = true := by
  intro a b c h1 h2
  simp only [decide_eq_true_eq] at h1 h2 ⊢
  exact le_trans h1 h2

theorem decide_fwd_total {β : Type} [LinearOrder β] (f : α → β) :
    ∀ a b : α, decide (f a ≤ f b) = true ∨ decide (f b ≤ f a) = true := by
  intro a b
  simp only [decide_eq_true_eq]
  exact le_total (f a) (f b)

theorem selectCommitsInRange_of_no_commits (now : Int) (repo : Repo)
    (branch : String) (h : repo.commitsOf branch = []) :
    selectCommitsInRange now repo branch = [] := by
  simp [selectCommitsInRange, getCommitsInLast3Months,
    getCommitsFromLastCommit, h]

/-! ## Claim theorems -/

/-- Claim C7: the aggregation is a deterministic pure function of the commit
set alone: `generate_metrics` never consults its `repo` argument, so the
result, including all sorted rankings and their tie ordering, is identical for
any two repository states and any two runs on the same commit set. -/
theorem claim_C7 (repo1 repo2 : Repo) (commits : List Commit) :
    generateMetrics repo1 commits = generateMetrics repo2 commits := rfl

/-- Claim C4: the per-author commit counts in the commits-by-author table sum
to the total number of commits in the set passed to the aggregator. -/
theorem claim_C4 (repo : Repo) (commits : List Commit) :
    sumVals (generateMetrics repo commits).commits_by_author = commits.length := by
  show sumVals (runAgg (commitsSorted commits)).commits_by_author = _
  rw [sumVals_runAgg_commits_by_author]
  exact (pySort_perm _ commits).length_eq

/-- Claim C2: the commit window is the first non-empty of (a) the trailing
90 days from now, (b) the 90-day window ending at the most recent commit,
(c) the entire branch history; when even (c) is empty the program shows the
no-commits message and writes no report file. -/
theorem claim_C2 (now : Int) (env : Env) (repo : Repo) (p : String)
    (hpath : env.selectedPath = some p) (hgit : env.hasGitDir = true)
    (hopen : env.openResult = Except.ok repo) :
    (getCommitsInLast3Months now repo (getActiveBranch repo) ≠ [] →
      selectCommitsInRange now repo (getActiveBranch repo) =
        getCommitsInLast3Months now repo (getActiveBranch repo)) ∧
    (getCommitsInLast3Months now repo (getActiveBranch repo) = [] →
      getCommitsFromLastCommit repo (getActiveBranch repo) ≠ [] →
      selectCommitsInRange now repo (getActiveBranch repo) =
        getCommitsFromLastCommit repo (getActiveBranch repo)) ∧
    (getCommitsInLast3Months now repo (getActiveBranch repo) = [] →
      getCommitsFromLastCommit repo (getActiveBranch repo) = [] →
      selectCommitsInRange now repo (getActiveBranch repo) =
        repo.commitsOf (getActiveBranch repo)) ∧
    (selectCommitsInRange now repo (getActiveBranch repo) = [] →
      (mainRun now env).messages =
        [RunMessage.info "Informação"
          ("Não foram encontrados commits no branch " ++ getActiveBranch repo ++
            " no repositório.")] ∧
      (mainRun now env).reportsWritten = []) := by
  refine ⟨?_, ?_, ?_, ?_⟩
  · intro h1
    simp [selectCommitsInRange, h1]
  · intro h1 h2
    simp [selectCommitsInRange, h1, h2]
  · intro h1 h2
    simp [selectCommitsInRange, h1, h2]
  · intro hsel
    constructor <;> simp [mainRun, hpath, hgit, hopen, hsel]

/-- Witness for claim C2: concrete repositories exercising each policy tier
and the no-commits termination case. -/
theorem claim_C2_witness :
    (getCommitsInLast3Months 100 wRepoRecent "master" ≠ [] ∧
      selectCommitsInRange 100 wRepoRecent "master" =
        getCommitsInLast3Months 100 wRepoRecent "master") ∧
    (getCommitsInLast3Months 10000000 wRepoOld "master" = [] ∧
      getCommitsFromLastCommit wRepoOld "master" ≠ [] ∧
      selectCommitsInRange 10000000 wRepoOld "master" =
        getCommitsFromLastCommit wRepoOld "master") ∧
    (selectCommitsInRange 0 wRepoEmpty "master" = [] ∧
      (mainRun 0 ⟨some "r", true, Except.ok wRepoEmpty⟩).reportsWritten = []) := by
  have hbr1 : getActiveBranch wRepoRecent = "master" := by decide
  have hbr2 : getActiveBranch wRepoOld = "master" := by decide
  have hbr3 : getActiveBranch wRepoEmpty = "master" := by decide
  have h1 := claim_C2 100 ⟨some "r", true, Except.ok wRepoRecent⟩ wRepoRecent
    "r" rfl rfl rfl
  have h2 := claim_C2 10000000 ⟨some "r", true, Except.ok wRepoOld⟩ wRepoOld
    "r" rfl rfl rfl
  have h3 := claim_C2 0 ⟨some "r", true, Except.ok wRepoEmpty⟩ wRepoEmpty
    "r" rfl rfl rfl
  rw [hbr1] at h1
  rw [hbr2] at h2
  rw [hbr3] at h3
  refine ⟨⟨by decide, h1.1 (by decide)⟩, ⟨by decide, by decide, ?_⟩, ?_, ?_⟩
  · exact h2.2.1 (by decide) (by decide)
  · exact selectCommitsInRange_of_no_commits 0 wRepoEmpty "master" rfl
  · exact (h3.2.2.2 (selectCommitsInRange_of_no_commits 0 wRepoEmpty "master"
      rfl)).2

/-- Claim C8: each of the four error cases of `main` (no repository selected,
selected path not a repository, backend failing to open, no commits found)
shows a user-visible dialog and terminates the run without writing any report
file. -/
theorem claim_C8 (now : Int) (env : Env) :
    (env.selectedPath = none →
      (mainRun now env).messages =
        [RunMessage.info "Cancelado"
          "Nenhum repositório foi selecionado. Encerrando."] ∧
      (mainRun now env).reportsWritten = []) ∧
    (∀ p, env.selectedPath = some p → env.hasGitDir = false →
      (mainRun now env).messages =
        [RunMessage.error "Erro"
          "O diretório selecionado não parece ser um repositório Git."] ∧
      (mainRun now env).reportsWritten = []) ∧
    (∀ p e, env.selectedPath = some p → env.hasGitDir = true →
      env.openResult = Except.error e →
      (mainRun now env).messages =
        [RunMessage.error "Erro"
          ("Não foi possível abrir o repositório. Detalhes: " ++ e)] ∧
      (mainRun now env).reportsWritten = []) ∧
    (∀ p repo, env.selectedPath = some p → env.hasGitDir = true →
      env.openResult = Except.ok repo →
      repo.commitsOf (getActiveBranch repo) = [] →
      (mainRun now env).messages =
        [RunMessage.info "Informação"
          ("Não foram encontrados commits no branch " ++ getActiveBranch repo ++
            " no repositório.")] ∧
      (mainRun now env).reportsWritten = []) := by
  refine ⟨?_, ?_, ?_, ?_⟩
  · intro h
    constructor <;> simp [mainRun, h]
  · intro p h1 h2
    constructor <;> simp [mainRun, h1, h2]
  · intro p e h1 h2 h3
    constructor <;> simp [mainRun, h1, h2, h3]
  · intro p repo h1 h2 h3 h4
    have hsel := selectCommitsInRange_of_no_commits now repo
      (getActiveBranch repo) h4
    constructor <;> simp [mainRun, h1, h2, h3, hsel]

/-- Witness for claim C8: the four error cases at concrete environments. -/
theorem claim_C8_witness :
    ((mainRun 0 ⟨none, true, Except.error "e"⟩).messages ≠ [] ∧
      (mainRun 0 ⟨none, true, Except.error "e"⟩).reportsWritten = []) ∧
    ((mainRun 0 ⟨some "r", false, Except.error "e"⟩).messages ≠ [] ∧
      (mainRun 0 ⟨some "r", false, Except.error "e"⟩).reportsWritten = []) ∧
    ((mainRun 0 ⟨some "r", true, Except.error "boom"⟩).messages ≠ [] ∧
      (mainRun 0 ⟨some "r", true, Except.error "boom"⟩).reportsWritten = []) ∧
    ((mainRun 0 ⟨some "r", true, Except.ok wRepoEmpty⟩).messages ≠ [] ∧
      (mainRun 0 ⟨some "r", true, Except.ok wRepoEmpty⟩).reportsWritten = []) := by
  have h1 := claim_C8 0 ⟨none, true, Except.error "e"⟩
  have h2 := claim_C8 0 ⟨some "r", false, Except.error "e"⟩
  have h3 := claim_C8 0 ⟨some "r", true, Except.error "boom"⟩
  have h4 := claim_C8 0 ⟨some "r", true, Except.ok wRepoEmpty⟩
  refine ⟨?_, ?_, ?_, ?_⟩
  · have := h1.1 rfl
    exact ⟨by rw [this.1]; simp, this.2⟩
  · have := h2.2.1 "r" rfl rfl
    exact ⟨by rw [this.1]; simp, this.2⟩
  · have := h3.2.2.1 "r" "boom" rfl rfl rfl
    exact ⟨by rw [this.1]; simp, this.2⟩
  · have := h4.2.2.2 "r" wRepoEmpty rfl rfl rfl rfl
    exact ⟨by rw [this.1]; simp, this.2⟩

/-- Claim C6: the derived rankings are sorted as the source sorts them:
authors by commit count descending; files by total line changes descending;
files by distinct-author count descending; authors by code churn descending;
authors by mean inter-commit interval ascending; weekdays by name in the
Python string order; (file, author) pairs by lines changed descending. -/
theorem claim_C6 (repo : Repo) (commits : List Commit) :
    ((generateMetrics repo commits).authors_with_most_commits).Pairwise
      (fun x y => y.2 ≤ x.2) ∧
    ((generateMetrics repo commits).files_modified_list).Pairwise
      (fun x y => y.2.2.2 ≤ x.2.2.2) ∧
    ((generateMetrics repo commits).files_by_authors_count).Pairwise
      (fun x y => y.2 ≤ x.2) ∧
    ((generateMetrics repo commits).lines_author_list).Pairwise
      (fun x y => y.2.2.2 ≤ x.2.2.2) ∧
    ((generateMetrics repo commits).average_time_by_author).Pairwise
      (fun x y => x.2 ≤ y.2) ∧
    ((generateMetrics repo commits).commits_by_day_list).Pairwise
      (fun x y => pyStrLe x.1 y.1 = true) ∧
    ((generateMetrics repo commits).files_most_changed_by_authors).Pairwise
      (fun x y => y.2.2 ≤ x.2.2) := by
  refine ⟨?_, ?_, ?_, ?_, ?_, ?_, ?_⟩
  · exact (pairwise_pySort _
      (decide_flip_trans (fun x : String × Nat => x.2))
      (decide_flip_total (fun x : String × Nat => x.2)) _).imp
      (fun h => of_decide_eq_true h)
  · exact (pairwise_pySort _
      (decide_flip_trans (fun x : String × Nat × Nat × Nat => x.2.2.2))
      (decide_flip_total (fun x : String × Nat × Nat × Nat => x.2.2.2)) _).imp
      (fun h => of_decide_eq_true h)
  · exact (pairwise_pySort _
      (decide_flip_trans (fun x : String × Nat => x.2))
      (decide_flip_total (fun x : String × Nat => x.2)) _).imp
      (fun h => of_decide_eq_true h)
  · exact (pairwise_pySort _
      (decide_flip_trans (fun x : String × Nat × Nat × Nat => x.2.2.2))
      (decide_flip_total (fun x : String × Nat × Nat × Nat => x.2.2.2)) _).imp
      (fun h => of_decide_eq_true h)
  · exact (pairwise_pySort _
      (decide_fwd_trans (fun x : String × ℚ => x.2))
      (decide_fwd_total (fun x : String × ℚ => x.2)) _).imp
      (fun h => of_decide_eq_true h)
  · exact pairwise_pySort (fun a b : String × Nat => pyStrLe a.1 b.1)
      (fun x y z h1 h2 => charListLe_trans x.1.data y.1.data z.1.data h1 h2)
      (fun x y => charListLe_total x.1.data y.1.data) _
  · exact (pairwise_pySort _
      (decide_flip_trans (fun x : String × String × Nat => x.2.2))
      (decide_flip_total (fun x : String × String × Nat => x.2.2)) _).imp
      (fun h => of_decide_eq_true h)

/-- Claim C9: a commit whose statistics list no file modifications still
increments its author's commit count and its weekday's count and feeds the
author's interval bookkeeping, while leaving every file-keyed table and the
per-author line table unchanged; consequently an author all of whose commits
touch no files appears in the commits-by-author table but not in the
lines-by-author ranking. -/
theorem claim_C9 (s : AggState) (c : Commit) (repo : Repo)
    (commits : List Commit) (a : String) :
    (c.files = [] →
      (processCommit s c).file_stats = s.file_stats ∧
      (processCommit s c).lines_by_author = s.lines_by_author ∧
      (processCommit s c).file_changes_by_author = s.file_changes_by_author ∧
      (processCommit s c).commits_by_author =
        dictUpdate s.commits_by_author c.author 0 (fun n => n + 1) ∧
      (processCommit s c).commits_by_day =
        dictUpdate s.commits_by_day (dayOfWeekName c.committedDate) 0
          (fun n => n + 1) ∧
      (processCommit s c).last_commit_time_by_author =
        dictSet s.last_commit_time_by_author c.author c.committedDate) ∧
    ((∃ c2 ∈ commits, c2.author = a) →
      (∀ c2 ∈ commits, c2.author = a → c2.files = []) →
      (∃ n, (a, n) ∈ (generateMetrics repo commits).commits_by_author) ∧
      (∀ row ∈ (generateMetrics repo commits).lines_author_list, row.1 ≠ a)) := by
  constructor
  · intro hfiles
    refine ⟨?_, ?_, ?_, processCommit_commits_by_author s c,
      processCommit_commits_by_day s c, processCommit_last_commit_time s c⟩ <;>
      simp [processCommit, hfiles]
  · intro hex hall
    constructor
    · obtain ⟨c2, hc2, hc2a⟩ := hex
      have hc2s : c2 ∈ commitsSorted commits := (mem_pySort _ _ _).mpr hc2
      have hcount : countAuthor (commitsSorted commits) a ≠ 0 := by
        intro h0
        have : c2 ∈ (commitsSorted commits).filter
            (fun c => decide (c.author = a)) :=
          List.mem_filter.mpr ⟨hc2s, by simp [hc2a]⟩
        rw [show ((commitsSorted commits).filter
            (fun c => decide (c.author = a))) = [] from
          List.length_eq_zero.mp h0] at this
        simp at this
      refine ⟨countAuthor (commitsSorted commits) a, ?_⟩
      show (a, _) ∈ (runAgg (commitsSorted commits)).commits_by_author
      apply mem_of_dictGet?_eq_some
      rw [dictGet?_runAgg_commits_by_author]
      simp [hcount]
    · intro row hrow
      intro hra
      have hrow2 : row ∈ (runAgg (commitsSorted commits)).lines_by_author.map
          (fun p => (p.1, p.2.1, p.2.2, p.2.1 + p.2.2)) :=
        (mem_pySort _ _ _).mp hrow
      obtain ⟨q, hq, hqe⟩ := List.mem_map.mp hrow2
      have hqk : q.1 ∈ keys (runAgg (commitsSorted commits)).lines_by_author :=
        List.mem_map.mpr ⟨q, hq, rfl⟩
      obtain ⟨c2, hc2, hc2a, hc2f⟩ :=
        mem_keys_lines_runAgg (commitsSorted commits) q.1 hqk
      have hc2m : c2 ∈ commits := (mem_pySort _ _ _).mp hc2
      have hq1 : q.1 = a := by
        rw [← hqe] at hra
        exact hra
      exact hc2f (hall c2 hc2m (by rw [hc2a, hq1]))

/-- Witness for claim C9: a no-file commit at the empty state, and a
commit set whose only author never touches a file. -/
theorem claim_C9_witness :
    ((processCommit initAggState wCommitOld).file_stats =
        initAggState.file_stats ∧
      (processCommit initAggState wCommitOld).lines_by_author =
        initAggState.lines_by_author ∧
      (processCommit initAggState wCommitOld).file_changes_by_author =
        initAggState.file_changes_by_author ∧
      (processCommit initAggState wCommitOld).commits_by_author =
        dictUpdate initAggState.commits_by_author "alice" 0 (fun n => n + 1) ∧
      (processCommit initAggState wCommitOld).commits_by_day =
        dictUpdate initAggState.commits_by_day (dayOfWeekName 0) 0
          (fun n => n + 1) ∧
      (processCommit initAggState wCommitOld).last_commit_time_by_author =
        dictSet initAggState.last_commit_time_by_author "alice" 0) ∧
    ((∃ n, ("alice", n) ∈
        (generateMetrics wRepoEmpty [wCommitOld]).commits_by_author) ∧
      (∀ row ∈ (generateMetrics wRepoEmpty [wCommitOld]).lines_author_list,
        row.1 ≠ "alice")) := by
  have h := claim_C9 initAggState wCommitOld wRepoEmpty [wCommitOld] "alice"
  exact ⟨h.1 rfl, h.2 ⟨wCommitOld, by simp, rfl⟩
    (by intro c2 hc2 _; simp at hc2; rw [hc2]; rfl)⟩

/-- Claim C10: every lines-by-author row has churn equal to insertions plus
deletions, every most-modified-files row has total equal to insertions plus
deletions, and every (file, author) lines-changed value is the sum of
insertions plus deletions over that author's commits touching the file. -/
theorem claim_C10 (repo : Repo) (commits : List Commit) :
    (∀ row ∈ (generateMetrics repo commits).lines_author_list,
      row.2.2.2 = row.2.1 + row.2.2.1) ∧
    (∀ row ∈ (generateMetrics repo commits).files_modified_list,
      row.2.2.2 = row.2.1 + row.2.2.1) ∧
    (∀ f a n,
      (f, a, n) ∈ (generateMetrics repo commits).files_most_changed_by_authors →
      n = authorFileChanges commits f a) := by
  refine ⟨?_, ?_, ?_⟩
  · intro row hrow
    obtain ⟨q, hq, hqe⟩ := List.mem_map.mp ((mem_pySort _ _ _).mp hrow)
    rw [← hqe]
  · intro row hrow
    obtain ⟨q, hq, hqe⟩ := List.mem_map.mp ((mem_pySort _ _ _).mp hrow)
    rw [← hqe]
  · intro f a n hmem
    have hmem2 := (mem_pySort _ _ _).mp hmem
    obtain ⟨q, hq, hinner⟩ := List.mem_flatMap.mp hmem2
    obtain ⟨r, hr, hre⟩ := List.mem_map.mp hinner
    have hqf : q.1 = f := congrArg Prod.fst hre
    have hra : r.1 = a := congrArg (fun x => x.2.1) hre
    have hrn : r.2 = n := congrArg (fun x => x.2.2) hre
    obtain ⟨hnd1, hnd2, hnd3, hnd4⟩ := nodupState_runAgg (commitsSorted commits)
    have houter : dictGet?
        (runAgg (commitsSorted commits)).file_changes_by_author f = some q.2 := by
      rw [← hqf]
      exact dictGet?_eq_some_of_mem_nodup hnd3 (by
        have : (q.1, q.2) = q := rfl
        rw [this]
        exact hq)
    have hinner2 : dictGet? q.2 a = some n := by
      rw [← hra, ← hrn]
      exact dictGet?_eq_some_of_mem_nodup (hnd4 q hq) (by
        have : (r.1, r.2) = r := rfl
        rw [this]
        exact hr)
    have hval : fileChangesVal (runAgg (commitsSorted commits)) f a = n := by
      simp [fileChangesVal, houter, hinner2]
    rw [← authorFileChanges_commitsSorted commits f a,
      ← fileChangesVal_runAgg, hval]

/-- Witness for claim C10: two authors touching one file with known
insertion and deletion counts. -/
theorem claim_C10_witness :
    (∀ row ∈ (generateMetrics wRepoEmpty wCommitsTwoAuthors).lines_author_list,
      row.2.2.2 = row.2.1 + row.2.2.1) ∧
    ("f.py", "alice", 4) ∈
      (generateMetrics wRepoEmpty wCommitsTwoAuthors).files_most_changed_by_authors ∧
    4 = authorFileChanges wCommitsTwoAuthors "f.py" "alice" := by
  have h := claim_C10 wRepoEmpty wCommitsTwoAuthors
  refine ⟨h.1, ?_, ?_⟩
  · decide
  · exact h.2.2 "f.py" "alice" 4 (by decide)

/-- Claim C5: for every row of the most-modified-files table, the insertions
on that file split across the distinct authors of the commit set: the sum over
authors of the insertions from that author's commits touching the file equals
the row's insertion count. Authors with no commit touching the file contribute
zero to the sum. -/
theorem claim_C5 (repo : Repo) (commits : List Commit) (f : String)
    (ins dels tot : Nat)
    (hmem : (f, ins, dels, tot) ∈
      (generateMetrics repo commits).files_modified_list) :
    ((distinctAuthors commits).map
      (fun a => authorFileInsertions commits f a)).sum = ins := by
  obtain ⟨q, hq, hqe⟩ := List.mem_map.mp ((mem_pySort _ _ _).mp hmem)
  have hqf : q.1 = f := congrArg Prod.fst hqe
  have hqi : q.2.insertions = ins := congrArg (fun x => x.2.1) hqe
  obtain ⟨hnd1, hnd2, hnd3, hnd4⟩ := nodupState_runAgg (commitsSorted commits)
  have hget : dictGet? (runAgg (commitsSorted commits)).file_stats f =
      some q.2 := by
    rw [← hqf]
    exact dictGet?_eq_some_of_mem_nodup hnd1 (by
      have : (q.1, q.2) = q := rfl
      rw [this]
      exact hq)
  have hval : fileInsVal (runAgg (commitsSorted commits)) f = ins := by
    simp [fileInsVal, hget, hqi]
  rw [sum_authorFileInsertions commits f (distinctAuthors commits)
    (List.nodup_dedup _)
    (fun c hc => List.mem_dedup.mpr (List.mem_map.mpr ⟨c, hc, rfl⟩))]
  rw [← totalFileInsertions_commitsSorted, ← fileInsVal_runAgg, hval]

/-- Witness for claim C5: the file f.py receives 3 insertions from alice and
4 from bob, and its table row records 7. -/
theorem claim_C5_witness :
    ("f.py", 7, 3, 10) ∈
      (generateMetrics wRepoEmpty wCommitsTwoAuthors).files_modified_list ∧
    ((distinctAuthors wCommitsTwoAuthors).map
      (fun a => authorFileInsertions wCommitsTwoAuthors "f.py" a)).sum = 7 :=
  ⟨by decide, claim_C5 wRepoEmpty wCommitsTwoAuthors "f.py" 7 3 10 (by decide)⟩

theorem formatTwoDecimals_zero : formatTwoDecimals 0 = "0.00" := by
  have h : round ((0 : ℚ) * 100) = 0 := by norm_num
  simp only [formatTwoDecimals, h]
  rfl

/-- Counterexample to claim C1: an author with a single commit is not omitted
from the average-inter-commit-time report and is not marked undefined; the
code reports the numeric value zero for them, both in the metrics table and in
the CSV cell 0.00. -/
theorem claim_C1_counterexample :
    (generateMetrics wRepoEmpty [wCommitOld]).average_time_by_author =
      [("alice", 0)] ∧
    (("average_time_between_commits.csv",
        [["author", "avg_time_between_commits_hours"], ["alice", "0.00"]]) ∈
      saveMetricsToCsv (generateMetrics wRepoEmpty [wCommitOld])) := by
  have h1 : (generateMetrics wRepoEmpty [wCommitOld]).average_time_by_author =
      [("alice", 0)] := by decide
  refine ⟨h1, ?_⟩
  simp [saveMetricsToCsv, h1, formatTwoDecimals_zero]

/-- Claim C1 as amended: an author with exactly one commit in the set is not
omitted and not marked undefined; they are reported in the
average-inter-commit-time report with the numeric interval average zero,
written as 0.00 in the CSV file. An author with no commit in the set does not
appear. -/
theorem claim_C1_amended (repo : Repo) (commits : List Commit) (a : String) :
    (countAuthor commits a = 1 →
      (a, (0 : ℚ)) ∈ (generateMetrics repo commits).average_time_by_author ∧
      ∃ rows, ("average_time_between_commits.csv", rows) ∈
          saveMetricsToCsv (generateMetrics repo commits) ∧
        [a, "0.00"] ∈ rows) ∧
    (countAuthor commits a = 0 →
      ∀ v, (a, v) ∉ (generateMetrics repo commits).average_time_by_author) := by
  constructor
  case right =>
    intro hcount v hv
    have hcount2 : countAuthor (commitsSorted commits) a = 0 := by
      rw [countAuthor_commitsSorted]
      exact hcount
    have htd := (timeState_runAgg (commitsSorted commits) a).1
    rw [hcount2, if_pos rfl] at htd
    obtain ⟨q, hq, hqe⟩ := List.mem_map.mp ((mem_pySort _ _ _).mp hv)
    have hq1 : q.1 = a := congrArg Prod.fst hqe
    have hak : a ∈ keys (runAgg (commitsSorted commits)).time_diffs_by_author := by
      rw [← hq1]
      exact List.mem_map.mpr ⟨q, hq, rfl⟩
    exact (dictGet?_eq_none_iff _ _).mp htd hak
  intro hcount
  have hcount2 : countAuthor (commitsSorted commits) a = 1 := by
    rw [countAuthor_commitsSorted]
    exact hcount
  have htd := (timeState_runAgg (commitsSorted commits) a).1
  rw [hcount2, if_neg (by norm_num : ¬(1 : Nat) = 0)] at htd
  have hlen : (intervalsOf (authorTimes (commitsSorted commits) a)).length = 0 := by
    rw [intervalsOf_length, authorTimes_length, hcount2]
  have hnil : intervalsOf (authorTimes (commitsSorted commits) a) = [] :=
    List.length_eq_zero.mp hlen
  rw [hnil] at htd
  have hmem0 : (a, ([] : List ℚ)) ∈
      (runAgg (commitsSorted commits)).time_diffs_by_author :=
    mem_of_dictGet?_eq_some (by simpa using htd)
  have hmem1 : (a, (0 : ℚ)) ∈
      (runAgg (commitsSorted commits)).time_diffs_by_author.map
        (fun p => (p.1, if 0 < p.2.length then p.2.sum / (p.2.length : ℚ) else 0)) :=
    List.mem_map.mpr ⟨(a, []), hmem0, by simp⟩
  have hmem : (a, (0 : ℚ)) ∈
      (generateMetrics repo commits).average_time_by_author := by
    show (a, (0 : ℚ)) ∈ pySort _ _
    exact (mem_pySort _ _ _).mpr hmem1
  refine ⟨hmem, ["author", "avg_time_between_commits_hours"] ::
    (generateMetrics repo commits).average_time_by_author.map
      (fun p => [p.1, formatTwoDecimals p.2]), ?_, ?_⟩
  · simp [saveMetricsToCsv]
  · refine List.mem_cons_of_mem _ ?_
    have hx : [a, formatTwoDecimals (0 : ℚ)] ∈
        (generateMetrics repo commits).average_time_by_author.map
          (fun p => [p.1, formatTwoDecimals p.2]) :=
      List.mem_map.mpr ⟨(a, (0 : ℚ)), hmem, rfl⟩
    simpa [formatTwoDecimals_zero] using hx

/-- Witness for the amended claim C1: alice with exactly one commit is
reported with the value zero, and bob, who has no commit in the set, does not
appear in the report. -/
theorem claim_C1_amended_witness :
    (countAuthor [wCommitOld] "alice" = 1 ∧
      ("alice", (0 : ℚ)) ∈
        (generateMetrics wRepoEmpty [wCommitOld]).average_time_by_author) ∧
    (countAuthor [wCommitOld] "bob" = 0 ∧
      ∀ v, ("bob", v) ∉
        (generateMetrics wRepoEmpty [wCommitOld]).average_time_by_author) :=
  ⟨⟨by decide,
      ((claim_C1_amended wRepoEmpty [wCommitOld] "alice").1 (by decide)).1⟩,
    ⟨by decide, (claim_C1_amended wRepoEmpty [wCommitOld] "bob").2 (by decide)⟩⟩

/-- Claim C3: the aggregator processes commits oldest first (the sorted list
is ordered by commit timestamp and is a permutation of the input); intervals
are the consecutive differences, in hours, of an author's timestamps in that
order, the author's first commit contributing no entry; for an author with at
least two commits the reported average is the arithmetic mean of that interval
list, and the CSV cell carries it rendered to two decimal places. -/
theorem claim_C3 (repo : Repo) (commits : List Commit) (a : String) (v : ℚ)
    (hmem : (a, v) ∈ (generateMetrics repo commits).average_time_by_author)
    (hcount : 2 ≤ countAuthor commits a) :
    List.Pairwise (fun c1 c2 : Commit => c1.committedDate ≤ c2.committedDate)
      (commitsSorted commits) ∧
    List.Perm (commitsSorted commits) commits ∧
    0 < (intervalsOf (authorTimes (commitsSorted commits) a)).length ∧
    v = (intervalsOf (authorTimes (commitsSorted commits) a)).sum /
      ((intervalsOf (authorTimes (commitsSorted commits) a)).length : ℚ) ∧
    ∃ rows, ("average_time_between_commits.csv", rows) ∈
        saveMetricsToCsv (generateMetrics repo commits) ∧
      [a, formatTwoDecimals v] ∈ rows := by
  have hsorted :
      List.Pairwise (fun c1 c2 : Commit => c1.committedDate ≤ c2.committedDate)
        (commitsSorted commits) :=
    (pairwise_pySort _
      (decide_fwd_trans (fun c : Commit => c.committedDate))
      (decide_fwd_total (fun c : Commit => c.committedDate)) _).imp
      (fun h => of_decide_eq_true h)
  have hcount2 : 2 ≤ countAuthor (commitsSorted commits) a := by
    rw [countAuthor_commitsSorted]
    exact hcount
  obtain ⟨q, hq, hqe⟩ := List.mem_map.mp ((mem_pySort _ _ _).mp hmem)
  have hq1 : q.1 = a := congrArg Prod.fst hqe
  have hv : (if 0 < q.2.length then q.2.sum / (q.2.length : ℚ) else 0) = v :=
    congrArg Prod.snd hqe
  obtain ⟨hnd1, hnd2, hnd3, hnd4⟩ := nodupState_runAgg (commitsSorted commits)
  have hget : dictGet? (runAgg (commitsSorted commits)).time_diffs_by_author a
      = some q.2 := by
    rw [← hq1]
    exact dictGet?_eq_some_of_mem_nodup hnd2 (by
      have : (q.1, q.2) = q := rfl
      rw [this]
      exact hq)
  have htd := (timeState_runAgg (commitsSorted commits) a).1
  rw [if_neg (by omega : ¬ countAuthor (commitsSorted commits) a = 0)] at htd
  have hq2 : q.2 = intervalsOf (authorTimes (commitsSorted commits) a) := by
    have := hget.symm.trans htd
    exact Option.some.inj this
  have hlen : 0 < (intervalsOf (authorTimes (commitsSorted commits) a)).length := by
    rw [intervalsOf_length, authorTimes_length]
    omega
  have hveq : v = (intervalsOf (authorTimes (commitsSorted commits) a)).sum /
      ((intervalsOf (authorTimes (commitsSorted commits) a)).length : ℚ) := by
    rw [← hv, hq2, if_pos hlen]
  refine ⟨hsorted, pySort_perm _ commits, hlen, hveq,
    ["author", "avg_time_between_commits_hours"] ::
      (generateMetrics repo commits).average_time_by_author.map
        (fun p => [p.1, formatTwoDecimals p.2]), ?_, ?_⟩
  · simp [saveMetricsToCsv]
  · exact List.mem_cons_of_mem _ (List.mem_map.mpr ⟨(a, v), hmem, rfl⟩)

/-- Witness for claim C3: alice commits at times 0 and 7200; her reported
average interval is 2 hours, the mean of her interval list. -/
theorem claim_C3_witness :
    (("alice", (2 : ℚ)) ∈
        (generateMetrics wRepoEmpty wCommitsAlicePair).average_time_by_author ∧
      2 ≤ countAuthor wCommitsAlicePair "alice") ∧
    (2 : ℚ) =
      (intervalsOf (authorTimes (commitsSorted wCommitsAlicePair) "alice")).sum /
        ((intervalsOf
          (authorTimes (commitsSorted wCommitsAlicePair) "alice")).length : ℚ) := by
  have hne : ¬ countAuthor (commitsSorted wCommitsAlicePair) "alice" = 0 := by
    decide
  have htd := (timeState_runAgg (commitsSorted wCommitsAlicePair) "alice").1
  rw [if_neg hne] at htd
  have htimes : authorTimes (commitsSorted wCommitsAlicePair) "alice" =
      [0, 7200] := by decide
  rw [htimes] at htd
  have hint : intervalsOf [(0 : Int), 7200] = [hoursDiff 0 7200] := rfl
  rw [hint] at htd
  have hmem0 := mem_of_dictGet?_eq_some htd
  have hval : (if 0 < ([hoursDiff 0 7200] : List ℚ).length
      then ([hoursDiff 0 7200] : List ℚ).sum /
        ((([hoursDiff 0 7200] : List ℚ).length : Nat) : ℚ)
      else 0) = (2 : ℚ) := by
    norm_num [hoursDiff]
  have hmem : ("alice", (2 : ℚ)) ∈
      (generateMetrics wRepoEmpty wCommitsAlicePair).average_time_by_author := by
    show ("alice", (2 : ℚ)) ∈ pySort _ _
    refine (mem_pySort _ _ _).mpr ?_
    refine List.mem_map.mpr ⟨("alice", [hoursDiff 0 7200]), hmem0, ?_⟩
    dsimp only
    rw [hval]
  have hcount : 2 ≤ countAuthor wCommitsAlicePair "alice" := by decide
  exact ⟨⟨hmem, hcount⟩,
    (claim_C3 wRepoEmpty wCommitsAlicePair "alice" 2 hmem hcount).2.2.2.1⟩

end FollowTheCode
